import Mathlib

/-!
Verification of the QR decode orchestration pipeline of `qr.service.ts` /
`qr.controller.ts` (altafpasha/QR-Decoder-api), shallowly embedded in Lean.

The external collaborators (Jimp image operations, the zxing symbol decoder)
are abstracted: for a fixed input image, the outcome of running the external
symbol decoder on the image processed by transform `t` and binarized with
strategy `b` is a pure function `dec : Transform → Binarizer → DecodeOutcome`.
Everything downstream of that point — the error classification in
`decodeWithBinarizer`, the `Promise.allSettled` aggregation and the
first-truthy-result selection loops of `tryDecodeWithProcessing` and
`decodeQrFromBuffer` — is translated from the source.
-/

/-- The seven preprocessing transforms of `tryDecodeWithProcessing`
(`qr.service.ts`, lines 183–260). -/
inductive Transform
  | original
  | grayscale
  | contrast
  | threshold
  | resize
  | aggressiveThreshold
  | edgeEnhance
deriving DecidableEq

/-- The two binarization strategies of `decodeWithBinarizer`
(`qr.service.ts`, lines 327–329). -/
inductive Binarizer
  | hybrid
  | globalHist
deriving DecidableEq

/-- Outcome of one invocation of the external zxing symbol decoder
(`this.reader.decode`): success with the decoded text, one of the three
expected exceptions, or an unclassified (unexpected) error. -/
inductive DecodeOutcome
  | success (text : String)
  | notFound
  | checksumFail
  | formatFail
  | unexpected (msg : String)
deriving DecidableEq

/-- The fixed transform order of the `Promise.allSettled` array literal in
`decodeQrFromBuffer` (`qr.service.ts`, lines 31–39). -/
def transformOrder : List Transform :=
  [Transform.original, Transform.grayscale, Transform.contrast, Transform.threshold,
   Transform.resize, Transform.aggressiveThreshold, Transform.edgeEnhance]

/-- The fixed binarizer order of the `Promise.allSettled` array literal in
`tryDecodeWithProcessing` (`qr.service.ts`, lines 263–266). -/
def binarizerOrder : List Binarizer :=
  [Binarizer.hybrid, Binarizer.globalHist]

/-- The 14 (transform, binarizer) pairs in fixed priority order. -/
def attemptOrder : List (Transform × Binarizer) :=
  (transformOrder.map (fun t => binarizerOrder.map (fun b => (t, b)))).flatten

/-- `decodeWithBinarizer` (`qr.service.ts`, lines 283–354): invoke the external
decoder; `NotFoundException`, `ChecksumException` and `FormatException` are
absorbed into a `null` result; success returns the decoded text; any other
error is rethrown, i.e. the promise rejects. -/
def decodeWithBinarizer (dec : Transform → Binarizer → DecodeOutcome)
    (t : Transform) (b : Binarizer) : Except String (Option String) :=
  match dec t b with
  | DecodeOutcome.success s => Except.ok (some s)
  | DecodeOutcome.notFound => Except.ok none
  | DecodeOutcome.checksumFail => Except.ok none
  | DecodeOutcome.formatFail => Except.ok none
  | DecodeOutcome.unexpected msg => Except.error msg

/-- The selection loop shared by `decodeQrFromBuffer` (lines 42–46) and
`tryDecodeWithProcessing` (lines 268–273): walk the settled results in array
order and return the first fulfilled value that is truthy in JavaScript —
i.e. a non-null, non-empty string. Rejected promises and falsy values
(`null`, the empty string) are skipped. -/
def firstTruthy : List (Except String (Option String)) → Option String
  | [] => none
  | Except.ok (some s) :: rest => if s.isEmpty then firstTruthy rest else some s
  | Except.ok none :: rest => firstTruthy rest
  | Except.error _ :: rest => firstTruthy rest

/-- `tryDecodeWithProcessing` (`qr.service.ts`, lines 172–281) restricted to
one transform: both binarizer attempts are unconditionally started
(`Promise.allSettled` of a two-element array literal), then the first truthy
fulfilled value is returned. The second component records the
(transform, binarizer) pairs on which the external decoder is invoked: the
array literal is unconditional, so both pairs are always attempted. -/
def tryDecodeWithProcessing (dec : Transform → Binarizer → DecodeOutcome)
    (t : Transform) : Option String × List (Transform × Binarizer) :=
  let attempts := binarizerOrder.map (fun b => (t, b))
  let settled := attempts.map (fun p => decodeWithBinarizer dec p.1 p.2)
  (firstTruthy settled, attempts)

/-- `decodeQrFromBuffer` (`qr.service.ts`, lines 19–59) after the image has
been loaded: all seven `tryDecodeWithProcessing` promises are started
unconditionally (`Promise.allSettled` of a seven-element array literal);
`tryDecodeWithProcessing` never rejects (its own catch returns `null`), so
every outer result is fulfilled; the loop returns the first truthy value,
else `null`. The second component is the list of all (transform, binarizer)
pairs on which the external decoder is invoked during the call. -/
def decodeQrFromBuffer (dec : Transform → Binarizer → DecodeOutcome) :
    Option String × List (Transform × Binarizer) :=
  let settled := transformOrder.map (fun t => tryDecodeWithProcessing dec t)
  (firstTruthy (settled.map (fun r => Except.ok r.1)),
   (settled.map (fun r => r.2)).flatten)

/-- The text reported for an outcome by the truthiness-based selection:
a decoded text is reported only when the attempt succeeded and the text is
non-empty (the JavaScript condition `result.status === 'fulfilled' &&
result.value`). -/
def succText : DecodeOutcome → Option String
  | DecodeOutcome.success s => if s.isEmpty then none else some s
  | _ => none

/-- Response body built by `QrController.decodeQr` (`qr.controller.ts`,
lines 55–95) in the non-throwing path: success flag, text, error message. -/
structure QrResponse where
  success : Bool
  text : Option String
  error : Option String
deriving DecidableEq

/-- `QrController.decodeQr` (`qr.controller.ts`, lines 55–81) after a valid
file upload whose buffer loads successfully: call the service and classify
its result by JavaScript truthiness of the returned text. -/
def decodeQr (dec : Transform → Binarizer → DecodeOutcome) : QrResponse :=
  match (decodeQrFromBuffer dec).1 with
  | some t =>
      if t.isEmpty then
        ⟨false, none, some "No QR code found in the image"⟩
      else
        ⟨true, some t, none⟩
  | none => ⟨false, none, some "No QR code found in the image"⟩

/-- One step of the positional result collection performed by
`Promise.allSettled`: when the task at position `i` completes, its outcome is
stored in slot `i` of the result array (never appended in completion order). -/
def settleStep (tasks : List α) (acc : List (Option α)) (i : ℕ) : List (Option α) :=
  match tasks[i]? with
  | some v => acc.set i (some v)
  | none => acc

/-- Completion-order model of `Promise.allSettled`: `σ` lists task positions
in the order the corresponding promises settle; slots of tasks that have not
settled remain `none`. -/
def settleAll (tasks : List α) (σ : List ℕ) : List (Option α) :=
  σ.foldl (settleStep tasks) (List.replicate tasks.length none)

/-- The selection loop of the scheduled model: identical to `firstTruthy`,
with unsettled slots (which cannot occur once every task has completed)
skipped. -/
def firstTruthyOpt : List (Option (Except String (Option String))) → Option String
  | [] => none
  | none :: rest => firstTruthyOpt rest
  | some (Except.ok (some s)) :: rest => if s.isEmpty then firstTruthyOpt rest else some s
  | some (Except.ok none) :: rest => firstTruthyOpt rest
  | some (Except.error _) :: rest => firstTruthyOpt rest

/-- `tryDecodeWithProcessing` under an explicit completion schedule `σ` for
its two binarizer attempts. -/
def tryDecodeSched (dec : Transform → Binarizer → DecodeOutcome) (t : Transform)
    (σ : List ℕ) : Option String :=
  firstTruthyOpt (settleAll ((binarizerOrder.map (fun b => (t, b))).map
    (fun p => decodeWithBinarizer dec p.1 p.2)) σ)

/-- `decodeQrFromBuffer` under explicit completion schedules: `σouter` is the
completion order of the seven transform-level promises, `σinner k` the
completion order of the two binarizer attempts inside transform number `k`. -/
def decodeQrSched (dec : Transform → Binarizer → DecodeOutcome)
    (σouter : List ℕ) (σinner : ℕ → List ℕ) : Option String :=
  firstTruthyOpt (settleAll (transformOrder.enum.map
    (fun e => Except.ok (tryDecodeSched dec e.2 (σinner e.1)))) σouter)

/-- Accumulator of the Otsu scan loop (`qr.service.ts`, lines 133–137):
running background intensity sum `sumB`, background weight `wB`, the maximum
between-class variance seen so far, and the current best threshold.
JavaScript numbers are modelled as exact rationals. -/
structure OtsuAcc where
  sumB : ℚ
  wB : ℚ
  maxVariance : ℚ
  threshold : ℕ
deriving DecidableEq

/-- The scan loop of `calculateOtsuThreshold` (`qr.service.ts`, lines
139–157): `continue` when the background weight `wB` is zero, `break` when
the foreground weight `wF = total - wB` reaches zero, otherwise accumulate
`sumB`, compute the class means `mB = sumB/wB` and `mF = (sum-sumB)/wF` and
the between-class variance `wB·wF·(mB-mF)²`, keeping the candidate attaining
a strictly larger variance than the maximum so far. -/
def otsuScan (histogram : ℕ → ℕ) (total sum : ℚ) : List ℕ → OtsuAcc → OtsuAcc
  | [], acc => acc
  | i :: rest, acc =>
    let wB : ℚ := acc.wB + (histogram i : ℚ)
    if wB = 0 then
      otsuScan histogram total sum rest ⟨acc.sumB, wB, acc.maxVariance, acc.threshold⟩
    else
      let wF : ℚ := total - wB
      if wF = 0 then
        ⟨acc.sumB, wB, acc.maxVariance, acc.threshold⟩
      else
        let sumB : ℚ := acc.sumB + (i : ℚ) * (histogram i : ℚ)
        let mB : ℚ := sumB / wB
        let mF : ℚ := (sum - sumB) / wF
        let variance : ℚ := wB * wF * (mB - mF) * (mB - mF)
        if acc.maxVariance < variance then
          otsuScan histogram total sum rest ⟨sumB, wB, variance, i⟩
        else
          otsuScan histogram total sum rest ⟨sumB, wB, acc.maxVariance, acc.threshold⟩

/-- `calculateOtsuThreshold` (`qr.service.ts`, lines 125–160): compute the
total pixel count and total intensity of the 256-bin histogram, then run the
ascending scan over t = 0,…,255 starting from
`sumB = wB = maxVariance = threshold = 0`. Histogram bins hold pixel counts
(the caller builds the histogram by `histogram[gray]++`). -/
def calculateOtsuThreshold (histogram : ℕ → ℕ) : ℕ :=
  let total : ℚ := ((List.range 256).map (fun i => (histogram i : ℚ))).sum
  let sum : ℚ := ((List.range 256).map (fun (i : ℕ) => (i : ℚ) * (histogram i : ℚ))).sum
  (otsuScan histogram total sum (List.range 256) ⟨0, 0, 0, 0⟩).threshold

/-- A division that refuses to run with a zero divisor, used to make the
implicit "no division by zero is ever executed" safety claim explicit. -/
def divChecked (a b : ℚ) : Option ℚ := if b = 0 then none else some (a / b)

/-- `otsuScan` with both divisions guarded by `divChecked`: identical control
flow, but the scan aborts with `none` if `mB = sumB/wB` or `mF = (sum-sumB)/wF`
were ever evaluated with a zero divisor. -/
def otsuScanChecked (histogram : ℕ → ℕ) (total sum : ℚ) :
    List ℕ → OtsuAcc → Option OtsuAcc
  | [], acc => some acc
  | i :: rest, acc =>
    let wB : ℚ := acc.wB + (histogram i : ℚ)
    if wB = 0 then
      otsuScanChecked histogram total sum rest ⟨acc.sumB, wB, acc.maxVariance, acc.threshold⟩
    else
      let wF : ℚ := total - wB
      if wF = 0 then
        some ⟨acc.sumB, wB, acc.maxVariance, acc.threshold⟩
      else
        let sumB : ℚ := acc.sumB + (i : ℚ) * (histogram i : ℚ)
        match divChecked sumB wB, divChecked (sum - sumB) wF with
        | some mB, some mF =>
          let variance : ℚ := wB * wF * (mB - mF) * (mB - mF)
          if acc.maxVariance < variance then
            otsuScanChecked histogram total sum rest ⟨sumB, wB, variance, i⟩
          else
            otsuScanChecked histogram total sum rest ⟨sumB, wB, acc.maxVariance, acc.threshold⟩
        | _, _ => none

/-- Prefix weight: number of pixels with gray value < m. `wPre h (t+1)` is
the background weight `wB` of candidate threshold `t`. -/
def wPre (histogram : ℕ → ℕ) (m : ℕ) : ℕ := ∑ i in Finset.range m, histogram i

/-- Prefix intensity sum: `sPre h (t+1)` is the background intensity `sumB`
of candidate threshold `t`. -/
def sPre (histogram : ℕ → ℕ) (m : ℕ) : ℕ := ∑ i in Finset.range m, i * histogram i

/-- A candidate threshold `t` is valid (its between-class variance is
computed by the scan, rather than skipped by the `wB == 0` `continue` or cut
off by the `wF == 0` `break`) when both classes are non-empty. -/
def ValidThreshold (histogram : ℕ → ℕ) (t : ℕ) : Prop :=
  t < 256 ∧ 0 < wPre histogram (t + 1) ∧ wPre histogram (t + 1) < wPre histogram 256

instance (histogram : ℕ → ℕ) (t : ℕ) : Decidable (ValidThreshold histogram t) := by
  unfold ValidThreshold
  infer_instance

/-- The between-class variance `wB·wF·(mB-mF)²` of candidate threshold `t`,
exactly as the scan computes it. -/
def betweenClassVariance (histogram : ℕ → ℕ) (t : ℕ) : ℚ :=
  (wPre histogram (t + 1) : ℚ) * ((wPre histogram 256 : ℚ) - (wPre histogram (t + 1) : ℚ)) *
    ((sPre histogram (t + 1) : ℚ) / (wPre histogram (t + 1) : ℚ) -
      ((sPre histogram 256 : ℚ) - (sPre histogram (t + 1) : ℚ)) /
        ((wPre histogram 256 : ℚ) - (wPre histogram (t + 1) : ℚ))) *
    ((sPre histogram (t + 1) : ℚ) / (wPre histogram (t + 1) : ℚ) -
      ((sPre histogram 256 : ℚ) - (sPre histogram (t + 1) : ℚ)) /
        ((wPre histogram 256 : ℚ) - (wPre histogram (t + 1) : ℚ)))

/-- Selection invariant of the scan: after all candidates below `m` have been
processed, either none of them was valid and `maxVariance`/`threshold` still
hold their initial zeros, or `threshold` is the first valid candidate
attaining the running maximum of the between-class variance. -/
def SelInv (histogram : ℕ → ℕ) (m : ℕ) (mv : ℚ) (th : ℕ) : Prop :=
  ((∀ t, t < m → ¬ ValidThreshold histogram t) ∧ mv = 0 ∧ th = 0)
  ∨ (ValidThreshold histogram th ∧ th < m ∧ mv = betweenClassVariance histogram th ∧
     0 < mv ∧
     (∀ t, t < m → ValidThreshold histogram t → betweenClassVariance histogram t ≤ mv) ∧
     (∀ t, t < th → ValidThreshold histogram t → betweenClassVariance histogram t < mv))

/-- A histogram whose mass sits entirely on the two well-separated spikes
`a` and `b`: the idealised bimodal histogram. -/
def twoSpikeHist (a b na nb : ℕ) : ℕ → ℕ :=
  fun i => if i = a then na else if i = b then nb else 0

/-- Bimodal histogram with unit peaks at 100 and 200. -/
def histPeaks : ℕ → ℕ := twoSpikeHist 100 200 1 1

/-- Uniform histogram: every gray value occurs once. -/
def uniformHist : ℕ → ℕ := fun _ => 1

/-- The all-zero histogram. -/
def zeroHist : ℕ → ℕ := fun _ => 0

/-- One RGBA pixel as returned by `Jimp.intToRGBA`: four byte channels. -/
structure RGBA where
  r : Fin 256
  g : Fin 256
  b : Fin 256
  a : Fin 256

/-- An image as accessed by the service: dimensions
(`getWidth()`/`getHeight()`) and pixel access (`getPixelColor(x, y)`). -/
structure JimpImage where
  width : ℕ
  height : ℕ
  pixel : ℕ → ℕ → RGBA

/-- JavaScript `Math.round` on a non-negative value: ⌊x + 1/2⌋. -/
def jsRound (x : ℚ) : ℤ := ⌊x + 1 / 2⌋

/-- The per-pixel luminance of `decodeWithBinarizer` (`qr.service.ts`,
line 300): `Math.round(0.299·R + 0.587·G + 0.114·B)`. -/
def luminance (p : RGBA) : ℤ :=
  jsRound ((0.299 : ℚ) * ((p.r : ℕ) : ℚ) + (0.587 : ℚ) * ((p.g : ℕ) : ℚ)
    + (0.114 : ℚ) * ((p.b : ℕ) : ℚ))

/-- Storage into a `Uint8ClampedArray` slot: integer values are clamped
to [0, 255]. -/
def clampByte (z : ℤ) : ℕ := min (max z 0).toNat 255

/-- The luminance array construction of `decodeWithBinarizer`
(`qr.service.ts`, lines 292–303): `y` outer loop, `x` inner loop, one byte
appended per pixel (`luminanceArray[lumIndex++] = luminance`), giving a
row-major array of `width·height` bytes. -/
def luminanceArray (img : JimpImage) : List ℕ :=
  (List.range img.height).flatMap (fun y =>
    (List.range img.width).map (fun x => clampByte (luminance (img.pixel x y))))

/-- The `resize` branch of `tryDecodeWithProcessing` (`qr.service.ts`, lines
223–232). The Jimp operations `resize(500,500)`, `greyscale()` and
`normalize()` are external collaborators, abstracted as image functions; the
branch applies the pipeline exactly when `Math.min(width, height) > 500` and
otherwise leaves the image untouched. -/
def resizeTransform (resize500 greyscale normalizeOp : JimpImage → JimpImage)
    (img : JimpImage) : JimpImage :=
  if 500 < min img.width img.height then
    normalizeOp (greyscale (resize500 img))
  else
    img

/-- A model instantiation of Jimp `resize(500,500)`: forces 500×500. -/
def resize500Model : JimpImage → JimpImage := fun img => ⟨500, 500, img.pixel⟩

/-- Identity image operation (model instantiation for grayscale/normalize). -/
def idImage : JimpImage → JimpImage := fun img => img

/-- A 1000×300 image: larger dimension over 500, smaller dimension under. -/
def imgWide : JimpImage := ⟨1000, 300, fun _ _ => ⟨0, 0, 0, 0⟩⟩

/-- A 100×100 image: both dimensions at most 500. -/
def imgSmall : JimpImage := ⟨100, 100, fun _ _ => ⟨0, 0, 0, 0⟩⟩

/-- A 1×1 image with a fixed pixel. -/
def imgOne : JimpImage := ⟨1, 1, fun _ _ => ⟨10, 20, 30, 255⟩⟩

/-- Decoder behaviour: every attempt succeeds with the same text. -/
def decAllSuccess : Transform → Binarizer → DecodeOutcome :=
  fun _ _ => DecodeOutcome.success "hello"

/-- Decoder behaviour: every attempt reports no symbol. -/
def decAllNotFound : Transform → Binarizer → DecodeOutcome :=
  fun _ _ => DecodeOutcome.notFound

/-- Decoder behaviour: the first attempt succeeds with the empty text, the
second succeeds with "x", all others find nothing. -/
def decEmptyFirst : Transform → Binarizer → DecodeOutcome := fun t b =>
  if t = Transform.original ∧ b = Binarizer.hybrid then DecodeOutcome.success ""
  else if t = Transform.original ∧ b = Binarizer.globalHist then DecodeOutcome.success "x"
  else DecodeOutcome.notFound

/-- Decoder behaviour: the first attempt fails with an unclassified error,
all others find nothing. -/
def decUnexpectedFirst : Transform → Binarizer → DecodeOutcome := fun t b =>
  if t = Transform.original ∧ b = Binarizer.hybrid then DecodeOutcome.unexpected "boom"
  else DecodeOutcome.notFound

/-- An outcome of the external decoder that the orchestrator treats as a
non-fatal, expected failure. -/
def NonFatal (o : DecodeOutcome) : Prop :=
  o = DecodeOutcome.notFound ∨ o = DecodeOutcome.checksumFail ∨ o = DecodeOutcome.formatFail

theorem succText_isEmpty_eq_false {o : DecodeOutcome} {s : String}
    (h : succText o = some s) : s.isEmpty = false := by
  cases o with
  | success text =>
      rw [show succText (DecodeOutcome.success text)
            = if text.isEmpty = true then none else some text from rfl] at h
      by_cases he : text.isEmpty = true
      · rw [if_pos he] at h
        exact absurd h (by simp)
      · rw [if_neg he] at h
        cases h
        simpa using he
  | notFound => exact absurd h (by simp [succText])
  | checksumFail => exact absurd h (by simp [succText])
  | formatFail => exact absurd h (by simp [succText])
  | unexpected msg => exact absurd h (by simp [succText])

theorem firstTruthy_pairs (dec : Transform → Binarizer → DecodeOutcome) :
    ∀ ps : List (Transform × Binarizer),
      firstTruthy (ps.map (fun p => decodeWithBinarizer dec p.1 p.2)) =
        ps.findSome? (fun p => succText (dec p.1 p.2))
  | [] => rfl
  | p :: ps => by
    have hd := firstTruthy_pairs dec ps
    simp only [List.map_cons, List.findSome?_cons]
    cases h : dec p.1 p.2 with
    | success s =>
        have e1 : decodeWithBinarizer dec p.1 p.2 = Except.ok (some s) := by
          simp [decodeWithBinarizer, h]
        rw [e1]
        by_cases hs : s.isEmpty = true <;>
          simpa [firstTruthy, succText, decodeWithBinarizer, hs] using hd
    | notFound =>
        have e1 : decodeWithBinarizer dec p.1 p.2 = Except.ok none := by
          simp [decodeWithBinarizer, h]
        rw [e1]
        simpa [firstTruthy, succText, decodeWithBinarizer] using hd
    | checksumFail =>
        have e1 : decodeWithBinarizer dec p.1 p.2 = Except.ok none := by
          simp [decodeWithBinarizer, h]
        rw [e1]
        simpa [firstTruthy, succText, decodeWithBinarizer] using hd
    | formatFail =>
        have e1 : decodeWithBinarizer dec p.1 p.2 = Except.ok none := by
          simp [decodeWithBinarizer, h]
        rw [e1]
        simpa [firstTruthy, succText, decodeWithBinarizer] using hd
    | unexpected msg =>
        have e1 : decodeWithBinarizer dec p.1 p.2 = Except.error msg := by
          simp [decodeWithBinarizer, h]
        rw [e1]
        simpa [firstTruthy, succText, decodeWithBinarizer] using hd

theorem tryDecode_fst (dec : Transform → Binarizer → DecodeOutcome) (t : Transform) :
    (tryDecodeWithProcessing dec t).1 =
      List.findSome? (fun p => succText (dec p.1 p.2))
        [(t, Binarizer.hybrid), (t, Binarizer.globalHist)] := by
  have h := firstTruthy_pairs dec [(t, Binarizer.hybrid), (t, Binarizer.globalHist)]
  simpa [tryDecodeWithProcessing, binarizerOrder] using h

theorem firstTruthy_map_ok (dec : Transform → Binarizer → DecodeOutcome) :
    ∀ ts : List Transform,
      firstTruthy (ts.map (fun t => Except.ok (tryDecodeWithProcessing dec t).1)) =
        List.findSome? (fun p => succText (dec p.1 p.2))
          ((ts.map (fun t => [(t, Binarizer.hybrid), (t, Binarizer.globalHist)])).flatten)
  | [] => rfl
  | t :: ts => by
    simp only [List.map_cons, List.flatten_cons]
    rw [List.findSome?_append, ← tryDecode_fst dec t]
    cases h : (tryDecodeWithProcessing dec t).1 with
    | none =>
        simp [firstTruthy, h, firstTruthy_map_ok dec ts, Option.or]
    | some s =>
        have hs : s.isEmpty = false := by
          rw [tryDecode_fst] at h
          obtain ⟨p, -, hp⟩ := List.exists_of_findSome?_eq_some h
          exact succText_isEmpty_eq_false hp
        simp [firstTruthy, h, hs, Option.or]

theorem decode_fst_eq (dec : Transform → Binarizer → DecodeOutcome) :
    (decodeQrFromBuffer dec).1 =
      attemptOrder.findSome? (fun p => succText (dec p.1 p.2)) := by
  have h := firstTruthy_map_ok dec transformOrder
  simpa [decodeQrFromBuffer, attemptOrder, binarizerOrder, List.map_map] using h

theorem decode_snd_eq (dec : Transform → Binarizer → DecodeOutcome) :
    (decodeQrFromBuffer dec).2 = attemptOrder := rfl

theorem settleStep_length (tasks : List α) (acc : List (Option α)) (i : ℕ) :
    (settleStep tasks acc i).length = acc.length := by
  unfold settleStep
  split <;> simp

theorem foldl_settleStep_getElem (tasks : List α) :
    ∀ (σ : List ℕ) (acc : List (Option α)), acc.length = tasks.length → ∀ j : ℕ,
      (σ.foldl (settleStep tasks) acc)[j]? =
        if j ∈ σ then tasks[j]?.map some else acc[j]?
  | [], acc, hlen, j => by simp
  | i :: σ, acc, hlen, j => by
    rw [List.foldl_cons,
      foldl_settleStep_getElem tasks σ (settleStep tasks acc i)
        (by rw [settleStep_length]; exact hlen) j]
    by_cases hj : j ∈ σ
    · simp [hj, List.mem_cons]
    · by_cases hji : j = i
      · subst hji
        simp only [hj, if_false, List.mem_cons, true_or, if_true]
        unfold settleStep
        cases ht : tasks[j]? with
        | some v =>
            have hlt : j < acc.length := by
              rw [hlen]
              by_contra hc
              rw [List.getElem?_eq_none (le_of_not_lt hc)] at ht
              exact absurd ht (by simp)
            simp [List.getElem?_set_self hlt, ht]
        | none =>
            have hge : acc.length ≤ j := by
              rw [hlen]
              by_contra hc
              rw [List.getElem?_eq_getElem (by omega)] at ht
              exact absurd ht (by simp)
            simp [List.getElem?_eq_none hge, ht]
      · have hnotin : j ∉ i :: σ := by
          simp [List.mem_cons, hji, hj]
        simp only [hnotin, if_false, hj]
        unfold settleStep
        split
        · rw [List.getElem?_set_ne (fun he => hji he.symm)]
        · rfl

theorem settleAll_perm (tasks : List α) (σ : List ℕ)
    (hσ : σ.Perm (List.range tasks.length)) :
    settleAll tasks σ = tasks.map some := by
  apply List.ext_getElem?
  intro j
  rw [settleAll, foldl_settleStep_getElem tasks σ _ (by simp) j]
  have hmem : j ∈ σ ↔ j < tasks.length := by
    rw [hσ.mem_iff, List.mem_range]
  by_cases hj : j < tasks.length
  · simp [hmem.mpr hj]
  · have h1 : j ∉ σ := fun h => hj (hmem.mp h)
    simp [h1, List.getElem?_replicate, hj, List.getElem?_eq_none (le_of_not_lt hj)]

theorem firstTruthyOpt_map_some :
    ∀ l : List (Except String (Option String)), firstTruthyOpt (l.map some) = firstTruthy l
  | [] => rfl
  | r :: rest => by
    cases r with
    | ok v =>
        cases v <;> simp [firstTruthyOpt, firstTruthy, firstTruthyOpt_map_some rest]
    | error e =>
        simp [firstTruthyOpt, firstTruthy, firstTruthyOpt_map_some rest]

theorem tryDecodeSched_perm (dec : Transform → Binarizer → DecodeOutcome)
    (t : Transform) (σ : List ℕ) (hσ : σ.Perm (List.range 2)) :
    tryDecodeSched dec t σ = (tryDecodeWithProcessing dec t).1 := by
  rw [tryDecodeSched, settleAll_perm _ _ (by simpa [binarizerOrder] using hσ),
    firstTruthyOpt_map_some]
  rfl

theorem decodeQrSched_perm (dec : Transform → Binarizer → DecodeOutcome)
    (σo : List ℕ) (σi : ℕ → List ℕ)
    (ho : σo.Perm (List.range 7)) (hi : ∀ k, (σi k).Perm (List.range 2)) :
    decodeQrSched dec σo σi = (decodeQrFromBuffer dec).1 := by
  rw [decodeQrSched, settleAll_perm _ _ (by simpa [transformOrder] using ho),
    firstTruthyOpt_map_some]
  have hmap : transformOrder.enum.map
        (fun e => Except.ok (ε := String) (tryDecodeSched dec e.2 (σi e.1)))
      = transformOrder.enum.map
        (fun e => Except.ok (tryDecodeWithProcessing dec e.2).1) :=
    List.map_congr_left (fun e _ => by rw [tryDecodeSched_perm dec e.2 _ (hi e.1)])
  rw [hmap]
  show _ = firstTruthy ((transformOrder.map
      (fun t => tryDecodeWithProcessing dec t)).map (fun r => Except.ok r.1))
  rw [List.map_map]
  have henum : transformOrder.enum.map
        (fun e => Except.ok (ε := String) (tryDecodeWithProcessing dec e.2).1)
      = (transformOrder.enum.map Prod.snd).map
        (fun t => Except.ok (tryDecodeWithProcessing dec t).1) := by
    rw [List.map_map]
    rfl
  rw [henum, List.enum_map_snd]
  rfl

theorem wPre_succ (h : ℕ → ℕ) (m : ℕ) : wPre h (m + 1) = wPre h m + h m :=
  Finset.sum_range_succ h m

theorem sPre_succ (h : ℕ → ℕ) (m : ℕ) : sPre h (m + 1) = sPre h m + m * h m :=
  Finset.sum_range_succ _ m

theorem wPre_mono (h : ℕ → ℕ) {m n : ℕ} (hmn : m ≤ n) : wPre h m ≤ wPre h n :=
  Finset.sum_le_sum_of_subset (Finset.range_subset.mpr hmn)

theorem listMapRangeSum (g : ℕ → ℚ) :
    ∀ n, ((List.range n).map g).sum = ∑ i in Finset.range n, g i
  | 0 => by simp
  | n + 1 => by
    rw [List.range_succ, List.map_append, List.sum_append, Finset.sum_range_succ,
      listMapRangeSum g n]
    simp

theorem otsuTotal_eq (h : ℕ → ℕ) :
    ((List.range 256).map (fun i => (h i : ℚ))).sum = (wPre h 256 : ℚ) := by
  rw [listMapRangeSum, wPre]
  push_cast
  rfl

theorem otsuSum_eq (h : ℕ → ℕ) :
    ((List.range 256).map (fun (i : ℕ) => (i : ℚ) * (h i : ℚ))).sum = (sPre h 256 : ℚ) := by
  rw [listMapRangeSum, sPre]
  push_cast
  rfl

theorem betweenClassVariance_pos (h : ℕ → ℕ) (t : ℕ) (hv : ValidThreshold h t) :
    0 < betweenClassVariance h t := by
  obtain ⟨ht256, hpos, hlt⟩ := hv
  have ht1 : t + 1 ≤ 256 := ht256
  have hsplitW : wPre h (t + 1) + ∑ i in Finset.Ico (t + 1) 256, h i = wPre h 256 := by
    rw [wPre, wPre, Finset.range_eq_Ico]
    exact Finset.sum_Ico_consecutive h (Nat.zero_le _) ht1
  have hsplitS : sPre h (t + 1) + ∑ i in Finset.Ico (t + 1) 256, i * h i = sPre h 256 := by
    rw [sPre, sPre, Finset.range_eq_Ico]
    exact Finset.sum_Ico_consecutive _ (Nat.zero_le _) ht1
  have hwB : (0 : ℚ) < (wPre h (t + 1) : ℚ) := by exact_mod_cast hpos
  have hwF : (0 : ℚ) < (wPre h 256 : ℚ) - (wPre h (t + 1) : ℚ) := by
    have hq : (wPre h (t + 1) : ℚ) < (wPre h 256 : ℚ) := by exact_mod_cast hlt
    linarith
  have hmB : (sPre h (t + 1) : ℚ) / (wPre h (t + 1) : ℚ) ≤ (t : ℚ) := by
    rw [div_le_iff₀ hwB]
    have hn : sPre h (t + 1) ≤ t * wPre h (t + 1) := by
      rw [sPre, wPre, Finset.mul_sum]
      refine Finset.sum_le_sum fun i hi => ?_
      exact Nat.mul_le_mul_right _ (Nat.le_of_lt_succ (Finset.mem_range.mp hi))
    exact_mod_cast hn
  have hmF : ((t : ℚ) + 1) ≤
      ((sPre h 256 : ℚ) - (sPre h (t + 1) : ℚ)) /
        ((wPre h 256 : ℚ) - (wPre h (t + 1) : ℚ)) := by
    rw [le_div_iff₀ hwF]
    have hS : (sPre h 256 : ℚ) - (sPre h (t + 1) : ℚ)
        = ((∑ i in Finset.Ico (t + 1) 256, i * h i : ℕ) : ℚ) := by
      rw [← hsplitS]
      push_cast
      ring
    have hW : (wPre h 256 : ℚ) - (wPre h (t + 1) : ℚ)
        = ((∑ i in Finset.Ico (t + 1) 256, h i : ℕ) : ℚ) := by
      rw [← hsplitW]
      push_cast
      ring
    rw [hS, hW]
    have hn : (t + 1) * (∑ i in Finset.Ico (t + 1) 256, h i)
        ≤ ∑ i in Finset.Ico (t + 1) 256, i * h i := by
      rw [Finset.mul_sum]
      refine Finset.sum_le_sum fun i hi => ?_
      exact Nat.mul_le_mul_right _ (Finset.mem_Ico.mp hi).1
    exact_mod_cast hn
  have hlt2 : (sPre h (t + 1) : ℚ) / (wPre h (t + 1) : ℚ)
      < ((sPre h 256 : ℚ) - (sPre h (t + 1) : ℚ)) /
          ((wPre h 256 : ℚ) - (wPre h (t + 1) : ℚ)) := by
    calc (sPre h (t + 1) : ℚ) / (wPre h (t + 1) : ℚ) ≤ (t : ℚ) := hmB
      _ < (t : ℚ) + 1 := by linarith
      _ ≤ _ := hmF
  unfold betweenClassVariance
  have hd : (sPre h (t + 1) : ℚ) / (wPre h (t + 1) : ℚ)
      - ((sPre h 256 : ℚ) - (sPre h (t + 1) : ℚ)) /
          ((wPre h 256 : ℚ) - (wPre h (t + 1) : ℚ)) < 0 := by linarith
  calc (0 : ℚ)
      < ((wPre h (t + 1) : ℚ) * ((wPre h 256 : ℚ) - (wPre h (t + 1) : ℚ))) *
        (((sPre h (t + 1) : ℚ) / (wPre h (t + 1) : ℚ) -
            ((sPre h 256 : ℚ) - (sPre h (t + 1) : ℚ)) /
              ((wPre h 256 : ℚ) - (wPre h (t + 1) : ℚ))) *
          ((sPre h (t + 1) : ℚ) / (wPre h (t + 1) : ℚ) -
            ((sPre h 256 : ℚ) - (sPre h (t + 1) : ℚ)) /
              ((wPre h 256 : ℚ) - (wPre h (t + 1) : ℚ)))) :=
        mul_pos (mul_pos hwB hwF) (mul_pos_of_neg_of_neg hd hd)
    _ = _ := by ring

theorem selInv_succ_invalid {h : ℕ → ℕ} {m : ℕ} {mv : ℚ} {th : ℕ}
    (hs : SelInv h m mv th) (hnv : ¬ ValidThreshold h m) : SelInv h (m + 1) mv th := by
  rcases hs with ⟨hall, hmv, hth⟩ | ⟨hv, hthm, hmveq, hmvpos, hmax, hfirst⟩
  · refine Or.inl ⟨fun t ht => ?_, hmv, hth⟩
    rcases Nat.lt_succ_iff_lt_or_eq.mp ht with h1 | h1
    · exact hall t h1
    · subst h1
      exact hnv
  · refine Or.inr ⟨hv, Nat.lt_succ_of_lt hthm, hmveq, hmvpos, fun t ht hvt => ?_, hfirst⟩
    rcases Nat.lt_succ_iff_lt_or_eq.mp ht with h1 | h1
    · exact hmax t h1 hvt
    · subst h1
      exact absurd hvt hnv

theorem selInv_extend {h : ℕ → ℕ} {m n : ℕ} {mv : ℚ} {th : ℕ}
    (hs : SelInv h m mv th) (hnv : ∀ t, m ≤ t → ¬ ValidThreshold h t) (hmn : m ≤ n) :
    SelInv h n mv th := by
  rcases hs with ⟨hall, hmv, hth⟩ | ⟨hv, hthm, hmveq, hmvpos, hmax, hfirst⟩
  · refine Or.inl ⟨fun t ht => ?_, hmv, hth⟩
    by_cases h1 : t < m
    · exact hall t h1
    · exact hnv t (le_of_not_lt h1)
  · refine Or.inr ⟨hv, lt_of_lt_of_le hthm hmn, hmveq, hmvpos, fun t ht hvt => ?_, hfirst⟩
    by_cases h1 : t < m
    · exact hmax t h1 hvt
    · exact absurd hvt (hnv t (le_of_not_lt h1))

theorem variance_formula (h : ℕ → ℕ) (m : ℕ) :
    (wPre h (m + 1) : ℚ) * ((wPre h 256 : ℚ) - (wPre h (m + 1) : ℚ)) *
      ((sPre h (m + 1) : ℚ) / (wPre h (m + 1) : ℚ) -
        ((sPre h 256 : ℚ) - (sPre h (m + 1) : ℚ)) /
          ((wPre h 256 : ℚ) - (wPre h (m + 1) : ℚ))) *
      ((sPre h (m + 1) : ℚ) / (wPre h (m + 1) : ℚ) -
        ((sPre h 256 : ℚ) - (sPre h (m + 1) : ℚ)) /
          ((wPre h 256 : ℚ) - (wPre h (m + 1) : ℚ)))
    = betweenClassVariance h m := rfl

theorem otsuScan_sel (h : ℕ → ℕ) :
    ∀ (k m : ℕ) (mv : ℚ) (th : ℕ), m + k = 256 →
      SelInv h m mv th →
      SelInv h 256
        (otsuScan h (wPre h 256 : ℚ) (sPre h 256 : ℚ) (List.range' m k)
          ⟨(sPre h m : ℚ), (wPre h m : ℚ), mv, th⟩).maxVariance
        (otsuScan h (wPre h 256 : ℚ) (sPre h 256 : ℚ) (List.range' m k)
          ⟨(sPre h m : ℚ), (wPre h m : ℚ), mv, th⟩).threshold
  | 0, m, mv, th, hmk, hs => by
    have hm : m = 256 := by omega
    subst hm
    simpa [otsuScan] using hs
  | k + 1, m, mv, th, hmk, hs => by
    rw [List.range'_succ]
    have ew : (wPre h m : ℚ) + (h m : ℚ) = (wPre h (m + 1) : ℚ) := by
      rw [wPre_succ]
      push_cast
      ring
    have es : (sPre h m : ℚ) + (m : ℚ) * (h m : ℚ) = (sPre h (m + 1) : ℚ) := by
      rw [sPre_succ]
      push_cast
      ring
    simp only [otsuScan]
    by_cases h0 : (wPre h m : ℚ) + (h m : ℚ) = 0
    · rw [if_pos h0]
      have hm0 : wPre h m + h m = 0 := by exact_mod_cast h0
      have hhm : h m = 0 := by omega
      have es0 : (sPre h m : ℚ) = (sPre h (m + 1) : ℚ) := by
        rw [sPre_succ, hhm]
        push_cast
        ring
      rw [ew, es0]
      have hnv : ¬ ValidThreshold h m := by
        intro hv
        have hp := hv.2.1
        rw [wPre_succ] at hp
        omega
      exact otsuScan_sel h k (m + 1) mv th (by omega) (selInv_succ_invalid hs hnv)
    · rw [if_neg h0]
      by_cases h1 : (wPre h 256 : ℚ) - ((wPre h m : ℚ) + (h m : ℚ)) = 0
      · rw [if_pos h1]
        show SelInv h 256 mv th
        have heq : wPre h (m + 1) = wPre h 256 := by
          have hq : ((wPre h (m + 1) : ℕ) : ℚ) = (wPre h 256 : ℚ) := by
            rw [← ew]
            linarith
          exact_mod_cast hq
        refine selInv_extend hs (fun t hmt hvt => ?_) (by omega)
        obtain ⟨ht256, hpos, hlt⟩ := hvt
        have hge : wPre h 256 ≤ wPre h (t + 1) := by
          rw [← heq]
          exact wPre_mono h (by omega)
        omega
      · rw [if_neg h1]
        rw [ew, es, variance_formula]
        have hvm : ValidThreshold h m := by
          refine ⟨by omega, ?_, ?_⟩
          · have hq : ((wPre h (m + 1) : ℕ) : ℚ) ≠ 0 := by
              rw [← ew]
              exact h0
            have h2 : wPre h (m + 1) ≠ 0 := by exact_mod_cast hq
            omega
          · have hle : wPre h (m + 1) ≤ wPre h 256 := wPre_mono h (by omega)
            have hne : ((wPre h (m + 1) : ℕ) : ℚ) ≠ (wPre h 256 : ℚ) := by
              rw [← ew]
              intro hcontra
              exact h1 (by linarith)
            have hne' : wPre h (m + 1) ≠ wPre h 256 := fun hcc => hne (by exact_mod_cast hcc)
            omega
        have hmvnn : 0 ≤ mv := by
          rcases hs with ⟨-, hmv, -⟩ | ⟨-, -, -, hmvpos, -, -⟩
          · rw [hmv]
          · linarith
        by_cases h2 : mv < betweenClassVariance h m
        · rw [if_pos h2]
          refine otsuScan_sel h k (m + 1) (betweenClassVariance h m) m (by omega) ?_
          refine Or.inr ⟨hvm, Nat.lt_succ_self m, rfl, lt_of_le_of_lt hmvnn h2,
            fun t ht hvt => ?_, fun t ht hvt => ?_⟩
          · rcases Nat.lt_succ_iff_lt_or_eq.mp ht with h3 | h3
            · rcases hs with ⟨hall, -, -⟩ | ⟨-, -, -, -, hmax, -⟩
              · exact absurd hvt (hall t h3)
              · exact le_of_lt (lt_of_le_of_lt (hmax t h3 hvt) h2)
            · subst h3
              exact le_refl _
          · rcases hs with ⟨hall, -, -⟩ | ⟨-, -, -, -, hmax, -⟩
            · exact absurd hvt (hall t ht)
            · exact lt_of_le_of_lt (hmax t ht hvt) h2
        · rw [if_neg h2]
          refine otsuScan_sel h k (m + 1) mv th (by omega) ?_
          rcases hs with ⟨hall, hmv, hth⟩ | ⟨hv, hthm, hmveq, hmvpos, hmax, hfirst⟩
          · exfalso
            have hVpos := betweenClassVariance_pos h m hvm
            rw [hmv] at h2
            exact h2 hVpos
          · refine Or.inr ⟨hv, Nat.lt_succ_of_lt hthm, hmveq, hmvpos,
              fun t ht hvt => ?_, hfirst⟩
            rcases Nat.lt_succ_iff_lt_or_eq.mp ht with h3 | h3
            · exact hmax t h3 hvt
            · subst h3
              exact le_of_not_lt h2

theorem calculateOtsuThreshold_eq_scan (h : ℕ → ℕ) :
    calculateOtsuThreshold h = (otsuScan h (wPre h 256 : ℚ) (sPre h 256 : ℚ)
      (List.range' 0 256) ⟨(sPre h 0 : ℚ), (wPre h 0 : ℚ), 0, 0⟩).threshold := by
  unfold calculateOtsuThreshold
  rw [otsuTotal_eq, otsuSum_eq, List.range_eq_range']
  have hs0 : ((sPre h 0 : ℕ) : ℚ) = 0 := by simp [sPre]
  have hw0 : ((wPre h 0 : ℕ) : ℚ) = 0 := by simp [wPre]
  rw [hs0, hw0]

theorem otsu_sel_final (h : ℕ → ℕ) :
    ∃ mv, SelInv h 256 mv (calculateOtsuThreshold h) := by
  have h0 : SelInv h 0 0 0 := Or.inl ⟨fun t ht => absurd ht (Nat.not_lt_zero t), rfl, rfl⟩
  have hmain := otsuScan_sel h 256 0 0 0 (by omega) h0
  rw [← calculateOtsuThreshold_eq_scan] at hmain
  exact ⟨_, hmain⟩

theorem otsu_le_255 (h : ℕ → ℕ) : calculateOtsuThreshold h ≤ 255 := by
  obtain ⟨mv, hsel⟩ := otsu_sel_final h
  rcases hsel with ⟨-, -, hth⟩ | ⟨⟨ht256, -, -⟩, -, -, -, -, -⟩
  · omega
  · omega

theorem otsu_first_argmax (h : ℕ → ℕ) (t₀ : ℕ) (hv : ValidThreshold h t₀) :
    ValidThreshold h (calculateOtsuThreshold h) ∧
    (∀ t, ValidThreshold h t →
      betweenClassVariance h t ≤ betweenClassVariance h (calculateOtsuThreshold h)) ∧
    (∀ t, t < calculateOtsuThreshold h → ValidThreshold h t →
      betweenClassVariance h t < betweenClassVariance h (calculateOtsuThreshold h)) := by
  obtain ⟨mv, hsel⟩ := otsu_sel_final h
  rcases hsel with ⟨hall, -, -⟩ | ⟨hvth, hlt256, hmveq, -, hmax, hfirst⟩
  · exact absurd hv (hall t₀ hv.1)
  · refine ⟨hvth, fun t hvt => ?_, fun t ht hvt => ?_⟩
    · have hb := hmax t hvt.1 hvt
      rw [hmveq] at hb
      exact hb
    · have hb := hfirst t ht hvt
      rw [hmveq] at hb
      exact hb

theorem otsu_no_valid (h : ℕ → ℕ) (hnv : ∀ t, ¬ ValidThreshold h t) :
    calculateOtsuThreshold h = 0 := by
  obtain ⟨mv, hsel⟩ := otsu_sel_final h
  rcases hsel with ⟨-, -, hth⟩ | ⟨hvth, -, -, -, -, -⟩
  · exact hth
  · exact absurd hvth (hnv _)

theorem otsuScanChecked_eq (h : ℕ → ℕ) (total sum : ℚ) :
    ∀ (l : List ℕ) (acc : OtsuAcc),
      otsuScanChecked h total sum l acc = some (otsuScan h total sum l acc)
  | [], acc => rfl
  | i :: rest, acc => by
    simp only [otsuScan, otsuScanChecked, divChecked]
    split_ifs with h0 h1 h2
    · exact otsuScanChecked_eq h total sum rest _
    · rfl
    · dsimp only
      rw [if_pos h2]
      exact otsuScanChecked_eq h total sum rest _
    · dsimp only
      rw [if_neg h2]
      exact otsuScanChecked_eq h total sum rest _

theorem otsuScan_zeroHist (total sum : ℚ) :
    ∀ (l : List ℕ) (acc : OtsuAcc), acc.wB = 0 →
      otsuScan zeroHist total sum l acc = acc
  | [], acc, h0 => rfl
  | i :: rest, acc, h0 => by
    obtain ⟨s, w, mv, th⟩ := acc
    simp only at h0
    subst h0
    simp only [otsuScan]
    have hz : (0 : ℚ) + ((zeroHist i : ℕ) : ℚ) = 0 := by simp [zeroHist]
    rw [if_pos hz, hz]
    exact otsuScan_zeroHist total sum rest ⟨s, 0, mv, th⟩ rfl

theorem calculateOtsuThreshold_zeroHist : calculateOtsuThreshold zeroHist = 0 := by
  unfold calculateOtsuThreshold
  dsimp only
  rw [otsuScan_zeroHist _ _ _ _ rfl]

theorem twoSpike_wPre (a b na nb : ℕ) (hab : a ≠ b) (n : ℕ) :
    wPre (twoSpikeHist a b na nb) n
      = (if a < n then na else 0) + (if b < n then nb else 0) := by
  have hsplit : ∀ i, twoSpikeHist a b na nb i
      = (if i = a then na else 0) + (if i = b then nb else 0) := by
    intro i
    unfold twoSpikeHist
    by_cases h1 : i = a
    · subst h1
      simp [hab]
    · by_cases h2 : i = b <;> simp [h1, h2, Ne.symm hab]
  unfold wPre
  rw [Finset.sum_congr rfl fun i _ => hsplit i, Finset.sum_add_distrib,
    Finset.sum_ite_eq' (Finset.range n) a fun _ => na,
    Finset.sum_ite_eq' (Finset.range n) b fun _ => nb]
  simp [Finset.mem_range]

theorem twoSpike_sPre (a b na nb : ℕ) (hab : a ≠ b) (n : ℕ) :
    sPre (twoSpikeHist a b na nb) n
      = (if a < n then a * na else 0) + (if b < n then b * nb else 0) := by
  have hsplit : ∀ i, i * twoSpikeHist a b na nb i
      = (if i = a then a * na else 0) + (if i = b then b * nb else 0) := by
    intro i
    unfold twoSpikeHist
    by_cases h1 : i = a
    · subst h1
      simp [hab]
    · by_cases h2 : i = b <;> simp [h1, h2, Ne.symm hab]
  unfold sPre
  rw [Finset.sum_congr rfl fun i _ => hsplit i, Finset.sum_add_distrib,
    Finset.sum_ite_eq' (Finset.range n) a fun _ => a * na,
    Finset.sum_ite_eq' (Finset.range n) b fun _ => b * nb]
  simp [Finset.mem_range]

theorem twoSpike_valid_iff (a b na nb : ℕ) (hab : a < b) (hb : b < 256)
    (hna : 0 < na) (hnb : 0 < nb) (t : ℕ) :
    ValidThreshold (twoSpikeHist a b na nb) t ↔ (a ≤ t ∧ t < b) := by
  have hne : a ≠ b := Nat.ne_of_lt hab
  unfold ValidThreshold
  rw [twoSpike_wPre a b na nb hne (t + 1), twoSpike_wPre a b na nb hne 256]
  have ha256 : a < 256 := by omega
  rw [if_pos ha256, if_pos hb]
  constructor
  · rintro ⟨h1, h2, h3⟩
    constructor
    · by_contra hc
      push_neg at hc
      have hna' : ¬ a < t + 1 := by omega
      have hnb' : ¬ b < t + 1 := by omega
      simp [hna', hnb'] at h2
    · by_contra hc
      push_neg at hc
      have hna' : a < t + 1 := by omega
      have hnb' : b < t + 1 := by omega
      simp [hna', hnb'] at h3
  · rintro ⟨h1, h2⟩
    have hna' : a < t + 1 := by omega
    have hnb' : ¬ b < t + 1 := by omega
    refine ⟨by omega, by simp [hna', hnb', hna], ?_⟩
    simp [hna', hnb', hnb]

theorem twoSpike_variance (a b na nb : ℕ) (hab : a < b) (hb : b < 256)
    (hna : 0 < na) (hnb : 0 < nb) (t : ℕ) (h1 : a ≤ t) (h2 : t < b) :
    betweenClassVariance (twoSpikeHist a b na nb) t
      = (na : ℚ) * (nb : ℚ) * ((a : ℚ) - (b : ℚ)) * ((a : ℚ) - (b : ℚ)) := by
  have hne : a ≠ b := Nat.ne_of_lt hab
  unfold betweenClassVariance
  rw [twoSpike_wPre a b na nb hne (t + 1), twoSpike_wPre a b na nb hne 256,
    twoSpike_sPre a b na nb hne (t + 1), twoSpike_sPre a b na nb hne 256]
  have ha1 : a < t + 1 := by omega
  have hb1 : ¬ b < t + 1 := by omega
  have ha256 : a < 256 := by omega
  rw [if_pos ha1, if_neg hb1, if_pos ha256, if_pos hb, if_pos ha1, if_neg hb1,
    if_pos ha256, if_pos hb]
  have hnaQ : (na : ℚ) ≠ 0 := Nat.cast_ne_zero.mpr (by omega)
  have hnbQ : (nb : ℚ) ≠ 0 := Nat.cast_ne_zero.mpr (by omega)
  push_cast
  field_simp

theorem otsu_twoSpike (a b na nb : ℕ) (hab : a < b) (hb : b < 256)
    (hna : 0 < na) (hnb : 0 < nb) :
    calculateOtsuThreshold (twoSpikeHist a b na nb) = a := by
  have hA : ValidThreshold (twoSpikeHist a b na nb) a :=
    (twoSpike_valid_iff a b na nb hab hb hna hnb a).mpr ⟨le_refl a, hab⟩
  obtain ⟨hvT, hmax, hfirst⟩ := otsu_first_argmax (twoSpikeHist a b na nb) a hA
  obtain ⟨h1, h2⟩ := (twoSpike_valid_iff a b na nb hab hb hna hnb _).mp hvT
  by_contra hne2
  have haT : a < calculateOtsuThreshold (twoSpikeHist a b na nb) :=
    lt_of_le_of_ne h1 (fun e => hne2 e.symm)
  have hstrict := hfirst a haT hA
  rw [twoSpike_variance a b na nb hab hb hna hnb a (le_refl a) hab,
    twoSpike_variance a b na nb hab hb hna hnb _ h1 h2] at hstrict
  exact lt_irrefl _ hstrict

theorem uni_wPre (n : ℕ) : wPre uniformHist n = n := by
  simp [wPre, uniformHist]

theorem uni_sPre (n : ℕ) : 2 * (sPre uniformHist n : ℚ) = (n : ℚ) * ((n : ℚ) - 1) := by
  cases n with
  | zero => simp [sPre]
  | succ m =>
      have hn : sPre uniformHist (m + 1) * 2 = (m + 1) * m := by
        unfold sPre uniformHist
        simpa using Finset.sum_range_id_mul_two (m + 1)
      have hq := congrArg (fun x : ℕ => (x : ℚ)) hn
      push_cast at hq
      push_cast
      linarith

theorem uni_valid_iff (t : ℕ) : ValidThreshold uniformHist t ↔ t < 255 := by
  unfold ValidThreshold
  rw [uni_wPre, uni_wPre]
  omega

theorem uni_variance (t : ℕ) (ht : t < 255) :
    betweenClassVariance uniformHist t
      = ((t : ℚ) + 1) * (255 - (t : ℚ)) * 16384 := by
  unfold betweenClassVariance
  rw [uni_wPre, uni_wPre]
  have hA : (sPre uniformHist (t + 1) : ℚ) = ((t : ℚ) + 1) * (t : ℚ) / 2 := by
    have h2 := uni_sPre (t + 1)
    push_cast at h2
    linarith
  have hS : (sPre uniformHist 256 : ℚ) = 32640 := by
    have h2 := uni_sPre 256
    push_cast at h2
    linarith
  rw [hA, hS]
  have h1 : ((t : ℚ) + 1) ≠ 0 := by
    have hnn : (0 : ℚ) ≤ (t : ℚ) := Nat.cast_nonneg t
    intro hc
    linarith
  have h2 : (256 : ℚ) - ((t : ℚ) + 1) ≠ 0 := by
    have : (t : ℚ) < 255 := by exact_mod_cast ht
    intro hc
    nlinarith
  push_cast
  field_simp
  ring

theorem otsu_uniform : calculateOtsuThreshold uniformHist = 127 := by
  have hv0 : ValidThreshold uniformHist 0 := (uni_valid_iff 0).mpr (by omega)
  obtain ⟨hvT, hmax, -⟩ := otsu_first_argmax uniformHist 0 hv0
  have hT : calculateOtsuThreshold uniformHist < 255 := (uni_valid_iff _).mp hvT
  have h127 : ValidThreshold uniformHist 127 := (uni_valid_iff 127).mpr (by omega)
  have hle := hmax 127 h127
  rw [uni_variance 127 (by omega), uni_variance _ hT] at hle
  push_cast at hle
  have hz : ((calculateOtsuThreshold uniformHist : ℚ) - 127) = 0 := by
    nlinarith [hle, sq_nonneg ((calculateOtsuThreshold uniformHist : ℚ) - 127)]
  have hq : (calculateOtsuThreshold uniformHist : ℚ) = 127 := by linarith
  exact_mod_cast hq

theorem luminance_nonneg (p : RGBA) : 0 ≤ luminance p := by
  unfold luminance jsRound
  rw [Int.le_floor]
  have h1 : (0 : ℚ) ≤ ((p.r : ℕ) : ℚ) := Nat.cast_nonneg _
  have h2 : (0 : ℚ) ≤ ((p.g : ℕ) : ℚ) := Nat.cast_nonneg _
  have h3 : (0 : ℚ) ≤ ((p.b : ℕ) : ℚ) := Nat.cast_nonneg _
  push_cast
  nlinarith

theorem luminance_le_255 (p : RGBA) : luminance p ≤ 255 := by
  unfold luminance jsRound
  rw [Int.floor_le_iff]
  have h1 : ((p.r : ℕ) : ℚ) ≤ 255 := by
    have := p.r.isLt
    exact_mod_cast Nat.le_of_lt_succ this
  have h2 : ((p.g : ℕ) : ℚ) ≤ 255 := by
    have := p.g.isLt
    exact_mod_cast Nat.le_of_lt_succ this
  have h3 : ((p.b : ℕ) : ℚ) ≤ 255 := by
    have := p.b.isLt
    exact_mod_cast Nat.le_of_lt_succ this
  push_cast
  nlinarith

theorem clampByte_id {z : ℤ} (h0 : 0 ≤ z) (h255 : z ≤ 255) :
    (clampByte z : ℤ) = z ∧ clampByte z = z.toNat := by
  unfold clampByte
  constructor <;> omega

theorem luminanceArray_length (img : JimpImage) :
    (luminanceArray img).length = img.width * img.height := by
  unfold luminanceArray List.flatMap
  rw [List.length_flatten, List.map_map]
  have hmap : ∀ y : ℕ, (List.length ∘ fun y =>
      (List.range img.width).map (fun x => clampByte (luminance (img.pixel x y)))) y
      = img.width := by
    intro y
    simp
  rw [List.map_congr_left fun y _ => hmap y]
  simp [List.sum_replicate, List.map_const, Nat.mul_comm]

theorem flatMap_rowMajor {α : Type} (f : ℕ → ℕ → α) (w : ℕ) :
    ∀ (hgt : ℕ) (x y : ℕ), x < w → y < hgt →
      ((List.range hgt).flatMap (fun j => (List.range w).map (fun i => f i j)))[y * w + x]?
        = some (f x y)
  | 0, x, y, hx, hy => absurd hy (Nat.not_lt_zero y)
  | hgt + 1, x, y, hx, hy => by
    rw [List.range_succ, List.flatMap_append]
    have hlen : ((List.range hgt).flatMap
        (fun j => (List.range w).map (fun i => f i j))).length = hgt * w := by
      unfold List.flatMap
      rw [List.length_flatten, List.map_map]
      have hmap : ∀ j : ℕ, (List.length ∘ fun j => (List.range w).map (fun i => f i j)) j
          = w := fun j => by simp
      rw [List.map_congr_left fun j _ => hmap j]
      simp [Nat.mul_comm]
    by_cases hyh : y < hgt
    · rw [List.getElem?_append_left (by rw [hlen]; calc
        y * w + x < y * w + w := by omega
        _ = (y + 1) * w := by ring
        _ ≤ hgt * w := Nat.mul_le_mul_right w (by omega))]
      exact flatMap_rowMajor f w hgt x y hx hyh
    · have hy' : y = hgt := by omega
      subst hy'
      rw [List.getElem?_append_right (by rw [hlen]; exact Nat.le_add_right _ _)]
      rw [hlen]
      have hidx : y * w + x - y * w = x := by omega
      rw [hidx]
      simp only [List.flatMap_cons, List.flatMap_nil, List.append_nil]
      rw [List.getElem?_map, List.getElem?_range hx]
      rfl

theorem luminanceArray_index (img : JimpImage) (x y : ℕ)
    (hx : x < img.width) (hy : y < img.height) :
    (luminanceArray img)[y * img.width + x]?
      = some (clampByte (luminance (img.pixel x y))) :=
  flatMap_rowMajor (fun i j => clampByte (luminance (img.pixel i j))) img.width
    img.height x y hx hy

/-- C1 (counterexample): the claim says an unexpected decoder error on some
attempt aborts the remaining attempts and propagates out of
`decodeQrFromBuffer`. On a run whose very first attempt rejects with the
unclassified error "boom", the code instead evaluates all 14 pairs (the last
pair is still attempted), returns the absorbed `null` result, and the
controller reports the ordinary "not found" response — nothing propagates. -/
theorem unexpected_error_absorbed_cex :
    decUnexpectedFirst Transform.original Binarizer.hybrid = DecodeOutcome.unexpected "boom" ∧
    (decodeQrFromBuffer decUnexpectedFirst).1 = none ∧
    (decodeQrFromBuffer decUnexpectedFirst).2 = attemptOrder ∧
    (Transform.edgeEnhance, Binarizer.globalHist) ∈ (decodeQrFromBuffer decUnexpectedFirst).2 ∧
    attemptOrder.length = 14 ∧
    decodeQr decUnexpectedFirst = ⟨false, none, some "No QR code found in the image"⟩ := by
  decide

/-- C1 (amended): an unexpected decoder failure on any attempt is absorbed by
the `Promise.allSettled` aggregation: its rejection makes that attempt count
as failed, every (transform, binarizer) pair is still evaluated, and
`decodeQrFromBuffer` returns the normal first-truthy selection over the other
attempts (null if none succeeds) instead of propagating the error. -/
theorem unexpected_error_absorbed
    (dec : Transform → Binarizer → DecodeOutcome) (p : Transform × Binarizer) (e : String)
    (hp : dec p.1 p.2 = DecodeOutcome.unexpected e) :
    (decodeQrFromBuffer dec).2 = attemptOrder ∧
    (decodeQrFromBuffer dec).1 = attemptOrder.findSome? (fun q => succText (dec q.1 q.2)) :=
  ⟨decode_snd_eq dec, decode_fst_eq dec⟩

/-- Witness for C1's amended theorem at the concrete decoder behaviour
`decUnexpectedFirst`. -/
theorem unexpected_error_absorbed_witness :
    (decodeQrFromBuffer decUnexpectedFirst).2 = attemptOrder ∧
    (decodeQrFromBuffer decUnexpectedFirst).1
      = attemptOrder.findSome? (fun q => succText (decUnexpectedFirst q.1 q.2)) :=
  unexpected_error_absorbed decUnexpectedFirst (Transform.original, Binarizer.hybrid) "boom"
    (by decide)

/-- C2 (counterexample): the claim says that once some attempt succeeds, no
later pair in the 14-pair order is evaluated. On a run whose first attempt
succeeds, the last pair of the ladder is still evaluated (all promises are
started by `Promise.allSettled` before any result is inspected). -/
theorem short_circuit_cex :
    decAllSuccess Transform.original Binarizer.hybrid = DecodeOutcome.success "hello" ∧
    (decodeQrFromBuffer decAllSuccess).1 = some "hello" ∧
    (Transform.edgeEnhance, Binarizer.globalHist) ∈ (decodeQrFromBuffer decAllSuccess).2 := by
  decide

/-- C2 (amended): every run evaluates exactly the 14 (transform, binarizer)
pairs in the fixed order — evaluation is never short-circuited — and at most
one successful attempt is reported: the reported text, if any, is the one of
the first truthy success in fixed order. -/
theorem short_circuit_amended (dec : Transform → Binarizer → DecodeOutcome) :
    (decodeQrFromBuffer dec).2 = attemptOrder ∧
    (decodeQrFromBuffer dec).2.length = 14 ∧
    (∀ s, (decodeQrFromBuffer dec).1 = some s →
      attemptOrder.findSome? (fun q => succText (dec q.1 q.2)) = some s) := by
  refine ⟨decode_snd_eq dec, ?_, fun s hs => ?_⟩
  · rw [decode_snd_eq dec]
    decide
  · rw [← decode_fst_eq dec]
    exact hs

/-- Witness for C2's amended theorem at the concrete decoder behaviour
`decAllSuccess`. -/
theorem short_circuit_amended_witness :
    attemptOrder.findSome? (fun q => succText (decAllSuccess q.1 q.2)) = some "hello" :=
  (short_circuit_amended decAllSuccess).2.2 "hello" (by decide)

/-- C3 (counterexample): the claim says that when several attempts succeed,
`decodeQrFromBuffer` returns the text of the earliest successful attempt in
the fixed order. Here the earliest successful attempt (original, hybrid)
decodes to the empty string, but the code returns "x" from the later
(original, global-histogram) attempt: the JavaScript truthiness check
`result.value` treats the empty decoded text as a failure and skips it. -/
theorem earliest_success_cex :
    decEmptyFirst Transform.original Binarizer.hybrid = DecodeOutcome.success "" ∧
    decEmptyFirst Transform.original Binarizer.globalHist = DecodeOutcome.success "x" ∧
    (decodeQrFromBuffer decEmptyFirst).1 = some "x" := by
  decide

/-- C3 (amended): `decodeQrFromBuffer` returns the text of the earliest
attempt in the fixed 14-pair priority order that succeeds with a NON-EMPTY
text (successes with empty text are skipped by the truthiness check), and
never "whichever completed first": the result is literally the first
`findSome?` hit along the fixed `attemptOrder`. -/
theorem earliest_success_amended (dec : Transform → Binarizer → DecodeOutcome) :
    (decodeQrFromBuffer dec).1 = attemptOrder.findSome? (fun p => succText (dec p.1 p.2)) :=
  decode_fst_eq dec

/-- C4: decoding is deterministic. The completion schedules of the
`Promise.allSettled` tasks (outer: the 7 transform promises; inner: the 2
binarizer promises of each transform) do not influence the result: any two
complete schedules yield the same value, equal to the schedule-free model's
result. Together with the model being a pure function of the per-attempt
outcomes, identical input bytes always produce identical results. -/
theorem decode_deterministic (dec : Transform → Binarizer → DecodeOutcome)
    (σ₁ σ₂ : List ℕ) (τ₁ τ₂ : ℕ → List ℕ)
    (h1 : σ₁.Perm (List.range 7)) (h2 : σ₂.Perm (List.range 7))
    (h3 : ∀ k, (τ₁ k).Perm (List.range 2)) (h4 : ∀ k, (τ₂ k).Perm (List.range 2)) :
    decodeQrSched dec σ₁ τ₁ = decodeQrSched dec σ₂ τ₂ ∧
    decodeQrSched dec σ₁ τ₁ = (decodeQrFromBuffer dec).1 := by
  rw [decodeQrSched_perm dec σ₁ τ₁ h1 h3, decodeQrSched_perm dec σ₂ τ₂ h2 h4]
  exact ⟨rfl, rfl⟩

/-- Witness for C4 at a concrete decoder behaviour and two concrete
completion schedules (one reversed, one in order). -/
theorem decode_deterministic_witness :
    decodeQrSched decAllSuccess [6, 5, 4, 3, 2, 1, 0] (fun _ => [1, 0])
      = decodeQrSched decAllSuccess [0, 1, 2, 3, 4, 5, 6] (fun _ => [0, 1]) ∧
    decodeQrSched decAllSuccess [6, 5, 4, 3, 2, 1, 0] (fun _ => [1, 0])
      = (decodeQrFromBuffer decAllSuccess).1 :=
  by
  have hp1 : ([1, 0] : List ℕ).Perm (List.range 2) := by decide
  have hp2 : ([0, 1] : List ℕ).Perm (List.range 2) := by decide
  exact decode_deterministic decAllSuccess [6, 5, 4, 3, 2, 1, 0] [0, 1, 2, 3, 4, 5, 6]
    (fun _ => [1, 0]) (fun _ => [0, 1])
    (by decide) (by decide) (fun _ => hp1) (fun _ => hp2)

/-- C9: when every one of the 14 attempts fails non-fatally (`NotFound`,
`ChecksumException` or `FormatException`), `decodeQrFromBuffer` returns the
ordinary `null` ("not found") result — not an error — all 14 pairs having
been evaluated with none skipped, and the controller answers with
`success: false, text: null`. -/
theorem exhaustion_not_found (dec : Transform → Binarizer → DecodeOutcome)
    (hnf : ∀ t b, NonFatal (dec t b)) :
    (decodeQrFromBuffer dec).1 = none ∧
    (decodeQrFromBuffer dec).2 = attemptOrder ∧
    attemptOrder.length = 14 ∧
    decodeQr dec = ⟨false, none, some "No QR code found in the image"⟩ := by
  have hfst : (decodeQrFromBuffer dec).1 = none := by
    rw [decode_fst_eq]
    rw [List.findSome?_eq_none_iff]
    intro p hp
    rcases hnf p.1 p.2 with h | h | h <;> simp [succText, h]
  refine ⟨hfst, decode_snd_eq dec, by decide, ?_⟩
  unfold decodeQr
  rw [hfst]

/-- Witness for C9 at the concrete all-NotFound decoder behaviour. -/
theorem exhaustion_not_found_witness :
    (decodeQrFromBuffer decAllNotFound).1 = none ∧
    (decodeQrFromBuffer decAllNotFound).2 = attemptOrder ∧
    attemptOrder.length = 14 ∧
    decodeQr decAllNotFound = ⟨false, none, some "No QR code found in the image"⟩ :=
  exhaustion_not_found decAllNotFound (fun _ _ => Or.inl rfl)

/-- C5: `calculateOtsuThreshold` scans candidates t = 0..255 ascending,
skipping every t whose background weight `wB` is zero and stopping once the
foreground weight `wF` reaches zero — so exactly the valid candidates (both
classes non-empty) are scored. Among them it returns the FIRST one attaining
the maximum between-class variance `wB·wF·(mB-mF)²` under the strict `>`
comparison: every valid candidate below the result scores strictly less, no
valid candidate scores more. The returned value is an integer in [0, 255]. -/
theorem otsu_first_max_spec (hist : ℕ → ℕ) :
    calculateOtsuThreshold hist ≤ 255 ∧
    ((∃ t, ValidThreshold hist t) →
      ValidThreshold hist (calculateOtsuThreshold hist) ∧
      (∀ t, ValidThreshold hist t →
        betweenClassVariance hist t
          ≤ betweenClassVariance hist (calculateOtsuThreshold hist)) ∧
      (∀ t, t < calculateOtsuThreshold hist → ValidThreshold hist t →
        betweenClassVariance hist t
          < betweenClassVariance hist (calculateOtsuThreshold hist))) :=
  ⟨otsu_le_255 hist, fun he => he.elim (fun t₀ hv => otsu_first_argmax hist t₀ hv)⟩

set_option maxRecDepth 8000

/-- Witness for C5 at the two-spike histogram with peaks at 100 and 200,
which has the valid candidate t = 100. -/
theorem otsu_first_max_spec_witness :
    calculateOtsuThreshold histPeaks ≤ 255 ∧
    ValidThreshold histPeaks (calculateOtsuThreshold histPeaks) :=
  ⟨(otsu_first_max_spec histPeaks).1,
   ((otsu_first_max_spec histPeaks).2 ⟨100, by decide⟩).1⟩

/-- C6 (counterexample): the claim requires the threshold of a bimodal
histogram with well-separated peaks a < b to lie STRICTLY between a and b.
For the histogram with unit spikes at 100 and 200 the scan returns exactly
100 = a — the between-class variance is constant on [a, b) and the
first-maximum tie-break selects a — so a < t fails. -/
theorem otsu_bimodal_cex :
    calculateOtsuThreshold histPeaks = 100 ∧
    ¬ (100 < calculateOtsuThreshold histPeaks ∧ calculateOtsuThreshold histPeaks < 200) := by
  have h : calculateOtsuThreshold (twoSpikeHist 100 200 1 1) = 100 :=
    otsu_twoSpike 100 200 1 1 (by omega) (by omega) (by omega) (by omega)
  have h' : calculateOtsuThreshold histPeaks = 100 := h
  exact ⟨h', by omega⟩

/-- C6 (amended): for every idealised bimodal histogram — all mass on two
well-separated spikes a < b (b < 256, both counts positive) — the returned
threshold equals a, hence a ≤ t < b holds but the claim's strict a < t does
not; and for the uniform histogram the returned threshold is the single
well-defined, reproducible value 127 (first-maximum tie-break scan). -/
theorem otsu_bimodal_amended :
    (∀ a b na nb : ℕ, a < b → b < 256 → 0 < na → 0 < nb →
      calculateOtsuThreshold (twoSpikeHist a b na nb) = a ∧
      a ≤ calculateOtsuThreshold (twoSpikeHist a b na nb) ∧
      calculateOtsuThreshold (twoSpikeHist a b na nb) < b) ∧
    calculateOtsuThreshold uniformHist = 127 := by
  refine ⟨fun a b na nb hab hb hna hnb => ?_, otsu_uniform⟩
  have h := otsu_twoSpike a b na nb hab hb hna hnb
  refine ⟨h, le_of_eq h.symm, ?_⟩
  omega

/-- Witness for C6's amended theorem at spikes 100 < 200 with unit counts. -/
theorem otsu_bimodal_amended_witness :
    calculateOtsuThreshold (twoSpikeHist 100 200 1 1) = 100 ∧
    100 ≤ calculateOtsuThreshold (twoSpikeHist 100 200 1 1) ∧
    calculateOtsuThreshold (twoSpikeHist 100 200 1 1) < 200 :=
  otsu_bimodal_amended.1 100 200 1 1 (by omega) (by omega) (by omega) (by omega)

/-- C7: luminance extraction stores, for the pixel at (x, y), the value
round(0.299·R + 0.587·G + 0.114·B) at row-major position y·width + x, one
byte per pixel (array length width·height); the value always lies in
[0, 255], so the `Uint8ClampedArray` clamp never alters it. -/
theorem luminance_spec (img : JimpImage) (x y : ℕ)
    (hx : x < img.width) (hy : y < img.height) :
    (luminanceArray img).length = img.width * img.height ∧
    (luminanceArray img)[y * img.width + x]?
      = some (clampByte (luminance (img.pixel x y))) ∧
    (clampByte (luminance (img.pixel x y)) : ℤ) = luminance (img.pixel x y) ∧
    0 ≤ luminance (img.pixel x y) ∧ luminance (img.pixel x y) ≤ 255 := by
  have h0 := luminance_nonneg (img.pixel x y)
  have h255 := luminance_le_255 (img.pixel x y)
  exact ⟨luminanceArray_length img, luminanceArray_index img x y hx hy,
    (clampByte_id h0 h255).1, h0, h255⟩

/-- Witness for C7 at a concrete 1×1 image. -/
theorem luminance_spec_witness :
    (luminanceArray imgOne).length = imgOne.width * imgOne.height ∧
    (luminanceArray imgOne)[0 * imgOne.width + 0]?
      = some (clampByte (luminance (imgOne.pixel 0 0))) ∧
    (clampByte (luminance (imgOne.pixel 0 0)) : ℤ) = luminance (imgOne.pixel 0 0) ∧
    0 ≤ luminance (imgOne.pixel 0 0) ∧ luminance (imgOne.pixel 0 0) ≤ 255 :=
  luminance_spec imgOne 0 0 (by decide) (by decide)

/-- C8 (counterexample): the claim says the resize transform downscales
exactly when max(width, height) > 500. For a 1000×300 image the larger
dimension exceeds 500, yet the code leaves the buffer untouched (the output
width stays 1000 instead of the pipeline's 500): the source tests
`Math.min(width, height) > 500`, not `Math.max`. -/
theorem resize_condition_cex :
    500 < max imgWide.width imgWide.height ∧
    resizeTransform resize500Model idImage idImage imgWide = imgWide ∧
    imgWide.width = 1000 ∧
    (idImage (idImage (resize500Model imgWide))).width = 500 := by
  refine ⟨by decide, ?_, rfl, rfl⟩
  rfl

/-- C8 (amended): the resize transform applies the downscale pipeline
(`resize(500,500)`, then grayscale + normalize) exactly when
min(width, height) > 500, and is a pass-through — the image unchanged — 
whenever the SMALLER dimension is at most 500 (in particular whenever
max(width, height) ≤ 500, but also for elongated images such as 1000×300). -/
theorem resize_condition_amended (r g n : JimpImage → JimpImage) (img : JimpImage) :
    (500 < min img.width img.height → resizeTransform r g n img = n (g (r img))) ∧
    (min img.width img.height ≤ 500 → resizeTransform r g n img = img) := by
  constructor
  · intro hlt
    unfold resizeTransform
    rw [if_pos hlt]
  · intro hle
    unfold resizeTransform
    rw [if_neg (by omega)]

/-- Witness for C8's amended theorem: a 100×100 image passes through. -/
theorem resize_condition_amended_witness :
    resizeTransform resize500Model idImage idImage imgSmall = imgSmall :=
  (resize_condition_amended resize500Model idImage idImage imgSmall).2 (by decide)

/-- C10: `calculateOtsuThreshold` is total over every 256-bin histogram of
counts: the scan with both divisions guarded (failing on a zero divisor)
never fails and agrees with the unguarded scan for every histogram, every
total/sum and every accumulator — the `wB == 0` continue and the `wF == 0`
break shield the two divisions; and on the all-zero histogram every
iteration is skipped (the scan returns its initial accumulator unchanged)
and the function returns 0. -/
theorem otsu_division_safe :
    (∀ (hist : ℕ → ℕ) (total sum : ℚ) (l : List ℕ) (acc : OtsuAcc),
      otsuScanChecked hist total sum l acc = some (otsuScan hist total sum l acc)) ∧
    (∀ total sum : ℚ,
      otsuScan zeroHist total sum (List.range 256) ⟨0, 0, 0, 0⟩ = ⟨0, 0, 0, 0⟩) ∧
    calculateOtsuThreshold zeroHist = 0 :=
  ⟨fun hist total sum l acc => otsuScanChecked_eq hist total sum l acc,
   fun total sum => otsuScan_zeroHist total sum (List.range 256) ⟨0, 0, 0, 0⟩ rfl,
   calculateOtsuThreshold_zeroHist⟩
